import Mathlib

/-!
Verification of the klog record-formatting and severity-routing engine.

The development shallowly embeds the relevant parts of the repository:

* `internal/serialize/keyvalues.go`: `WithValues`, `Formatter.FormatKVs`
  (speculative formatting with interval-based de-duplication),
  `findObsoleteEntry`, `writeStringValue`, and the panic-recovering
  converters `StringerToString`, `MarshalerToValue`, `ErrorToString`,
  `writeTextWriterValue`.
* `contextual_slog.go` sibling `context.go` (`contextLogSinkDepth` with its
  additive `WithCallDepth`).
* The severity router of `loggingT.output` is not among the sources; it is
  modelled from the specification (and cross-checked against the test tables
  of `TestStderrThresholdWithLogToStderr` / `TestAlsologtostderrthreshold`).

Byte buffers are modelled as `List Char`; Go `int` indices as `Nat` (all
indices in the algorithm are non-negative lengths of previously written
output).
-/

abbrev Bytes := List Char

/-! ## Severity and the router (modelled from the spec) -/

/-- The four klog severities, `internal/severity/severity.go`:
`InfoLog < WarningLog < ErrorLog < FatalLog`. -/
inductive Severity where
  | infoLog
  | warningLog
  | errorLog
  | fatalLog
deriving DecidableEq, Repr

/-- Numeric rank of a severity, matching the iota order of the Go constants. -/
def Severity.rank : Severity → Nat
  | .infoLog => 0
  | .warningLog => 1
  | .errorLog => 2
  | .fatalLog => 3

/-- Boolean order test `a <= b` on severities. -/
def sevLE (a b : Severity) : Bool := a.rank ≤ b.rank

/-- All severities, in increasing order (the per-severity file writer slots). -/
def allSeverities : List Severity :=
  [.infoLog, .warningLog, .errorLog, .fatalLog]

/-- The threshold configuration read under the lock by the router
(spec §3 `ThresholdConfig`; the fields mirror `loggingT`). -/
structure ThresholdConfig where
  toStderr : Bool
  alsoToStderr : Bool
  legacyStderrThresholdBehavior : Bool
  stderrThreshold : Severity
  alsoStderrThreshold : Severity
deriving DecidableEq, Repr

/-- Destinations selected for one record: whether the console (stderr)
receives it, and which per-severity file writers receive it. -/
structure RouteDecision where
  toConsole : Bool
  toFiles : List Severity
deriving DecidableEq, Repr

/-- Modelled from the spec: the destination-selection step of
`loggingT.output` in `klog.go`, which is not among the sources (only its
tests are). Spec §4.3: with `toStderr` set, no file write happens and the
console receives the record unconditionally under the legacy behavior,
otherwise only when `severity >= stderrThreshold`; with `toStderr` unset,
the record cascades into every file writer of severity `<= severity` and is
mirrored to the console when `severity >= stderrThreshold` or
(`alsoToStderr` and `severity >= alsoStderrThreshold`). -/
def route (cfg : ThresholdConfig) (s : Severity) : RouteDecision :=
  if cfg.toStderr then
    { toConsole := cfg.legacyStderrThresholdBehavior || sevLE cfg.stderrThreshold s
      toFiles := [] }
  else
    { toConsole := sevLE cfg.stderrThreshold s ||
        (cfg.alsoToStderr && sevLE cfg.alsoStderrThreshold s)
      toFiles := allSeverities.filter (fun s' => sevLE s' s) }

/-! ## Panic-recovering converters (`keyvalues.go`) -/

/-- Result of invoking a user-supplied renderer (Go `Stringer.String`,
`error.Error`, `Marshaler.MarshalLog`): either a normal result or a panic
carrying a message. -/
abbrev RenderOutcome (α : Type) := Except String α

/-- `StringerToString` from `keyvalues.go`: invokes the stringer and, if the
invocation panics with message `err`, recovers and returns
`"<panic: " ++ err ++ ">"`. -/
def StringerToString (s : RenderOutcome String) : String :=
  match s with
  | .ok v => v
  | .error err => "<panic: " ++ err ++ ">"

/-- `ErrorToString` from `keyvalues.go`: same recovery discipline for
`error.Error`. -/
def ErrorToString (e : RenderOutcome String) : String :=
  match e with
  | .ok v => v
  | .error err => "<panic: " ++ err ++ ">"

/-- `MarshalerToValue` from `keyvalues.go`: invokes `MarshalLog` and on a
panic substitutes the placeholder string for the marshaled value. -/
def MarshalerToValue (m : RenderOutcome α) : α ⊕ String :=
  match m with
  | .ok v => .inl v
  | .error err => .inr ("<panic: " ++ err ++ ">")

/-- Behavior of a Go `textWriter` value: the bytes it appends to the buffer
before returning normally or panicking with the given message. -/
structure TextWriterBehavior where
  written : String
  panicMsg : Option String
deriving DecidableEq, Repr

/-- `writeTextWriterValue` from `keyvalues.go`: writes `=`, invokes
`v.WriteText(b)` (whose partial output stays in the buffer), and if that
panics appends the quoted placeholder `"<panic: err>"` instead of
propagating. -/
def writeTextWriterValue (b : String) (v : TextWriterBehavior) : String :=
  let b := b ++ "=" ++ v.written
  match v.panicMsg with
  | none => b
  | some err => b ++ "\"<panic: " ++ err ++ ">\""

/-! ## The call-depth-adjusting decorator (`contextual.go` part) -/

/-- `contextLogSinkDepth`: a context-injecting sink variant for inner sinks
that support call-depth adjustment. `Sink` stands for the `logr.LogSink`
and `logr.CallDepthLogSink` interface values, `CV` for the stored
`contextValues`. -/
structure contextLogSinkDepth (Sink CV : Type) where
  logSink : Sink
  callDepthLogSink : Sink
  cv : CV
  callDepth : Int
deriving DecidableEq, Repr

/-- `contextLogSinkDepth.WithCallDepth`: `clone := *cls;
clone.callDepth += depth; return &clone` — a value copy whose stored call
depth is the sum of the old depth and the argument. -/
def contextLogSinkDepth.WithCallDepth (cls : contextLogSinkDepth Sink CV)
    (depth : Int) : contextLogSinkDepth Sink CV :=
  { cls with callDepth := cls.callDepth + depth }

/-! ## `WithValues` and pair extraction (`keyvalues.go`) -/

/-- The `missingValue` placeholder constant of `keyvalues.go`. -/
def missingValue : String := "(MISSING)"

/-- `WithValues` from `keyvalues.go`: returns `oldKV` unchanged when no new
pairs are given; otherwise concatenates the two lists and pads with the
missing-value placeholder when the combined length is odd. Keys and values
are modelled as rendered byte strings. -/
def WithValues (oldKV newKV : List Bytes) : List Bytes :=
  if newKV.length = 0 then
    oldKV
  else
    let newLen := oldKV.length + newKV.length
    if newLen % 2 ≠ 0 then oldKV ++ newKV ++ [missingValue.data]
    else oldKV ++ newKV

/-- The pair-extraction loop of `Formatter.FormatKVs`: indices advance by
two; when the final value at `i+1` is absent the missing-value placeholder
is substituted. -/
def pairsOf : List Bytes → List (Bytes × Bytes)
  | [] => []
  | [k] => [(k, missingValue.data)]
  | k :: v :: rest => (k, v) :: pairsOf rest

/-! ## String value rendering (`writeStringValue`) -/

/-- Modelled from the spec: the quoted, escaped rendering of a line-break
free string (`strconv.AppendQuote`, part of the Go standard library, not of
this repository): the value between double quotes with quotation marks and
backslashes escaped. -/
def goQuote (v : Bytes) : Bytes :=
  '"' :: (v.map fun c => if c = '"' ∨ c = '\\' then ['\\', c] else [c]).flatten ++ ['"']

/-- Splits a byte sequence at every newline; each `\n` terminates a
segment, so a trailing newline yields a final empty segment. This is the
traversal performed by the `bytes.IndexByte` loop of `writeStringValue`. -/
def splitNL : Bytes → List Bytes
  | [] => [[]]
  | c :: rest =>
    if c = '\n' then [] :: splitNL rest
    else
      match splitNL rest with
      | [] => [[c]]
      | seg :: segs => (c :: seg) :: segs

/-- The emission loop of `writeStringValue` over the newline-separated
segments: every segment that ended in a newline is written with a leading
tab and its newline; a nonempty final segment without newline is written
with a leading tab and a newline is added; then the ` >` terminator. -/
def writeLines : List Bytes → Bytes
  | [] => (" >").data
  | [last] =>
    if last.isEmpty then (" >").data
    else '\t' :: (last ++ ("\n >").data)
  | seg :: rest => '\t' :: (seg ++ ['\n']) ++ writeLines rest

/-- `writeStringValue` from `keyvalues.go`: a string without line breaks is
rendered as `=` followed by the quoted string; a string with line breaks is
rendered as `=<`, a newline, each line prefixed by a tab, and a closing
` >`. -/
def writeStringValue (v : Bytes) : Bytes :=
  if v.contains '\n' then ("=<\n").data ++ writeLines (splitNL v)
  else '=' :: goQuote v

/-- Drops the final empty segment produced by a trailing newline: the
segments that `writeStringValue` actually renders as lines. -/
def stripLastEmpty (segs : List Bytes) : List Bytes :=
  if segs.getLast? = some [] then segs.dropLast else segs

/-! ## The de-duplicating formatter (`Formatter.FormatKVs`) -/

/-- Half-open byte interval `[start, stop)` into the output buffer
(`interval` in `keyvalues.go`; the source calls the upper bound `end`). -/
structure interval where
  start : Nat
  stop : Nat
deriving DecidableEq, Repr

/-- `obsoleteKV` from `keyvalues.go`: the key text of a formatted pair
together with the interval its output occupies. -/
structure obsoleteKV where
  key : Bytes
  itv : interval
deriving DecidableEq, Repr

/-- `findObsoleteEntry` from `keyvalues.go`: the linear scan returning the
index of the first recorded entry with the given key, if any (the Go code
returns `-1` when there is none). -/
def findObsoleteEntry (entries : List obsoleteKV) (key : Bytes) : Option Nat :=
  match entries with
  | [] => none
  | e :: rest =>
    if e.key == key then some 0
    else (findObsoleteEntry rest key).map (· + 1)

/-- Modelled from the spec: `Formatter.KVFormat` (defined in
`keyvalues_slog.go`, which is not among the sources) writes a space
separator, the key text, and the rendered value, and returns the key text
used for de-duplication. Keys and values are modelled as strings, values
rendered by `writeStringValue`. -/
def KVFormat (k v : Bytes) : Bytes :=
  ' ' :: (k ++ writeStringValue v)

/-- The sub-buffer `b[s:t]` of a byte buffer. -/
def byteSlice (b : Bytes) (s t : Nat) : Bytes := (b.drop s).take (t - s)

/-- The ordered insertion performed by `slices.BinarySearchFunc` (comparing
`start`) followed by `slices.Insert`: the new interval is placed before the
first recorded interval whose `start` is not smaller. -/
def insertObsolete (o : interval) : List interval → List interval
  | [] => [o]
  | x :: rest =>
    if o.start ≤ x.start then o :: x :: rest
    else x :: insertObsolete o rest

/-- The loop state of `Formatter.FormatKVs`: the output buffer, the
recorded entries (one per key seen), and the obsolete intervals sorted by
start. -/
structure FormatState where
  buf : Bytes
  existing : List obsoleteKV
  obsolete : List interval
deriving DecidableEq, Repr

/-- The initial state of `Formatter.FormatKVs`. -/
def emptyState : FormatState := ⟨[], [], []⟩

/-- One iteration of the `Formatter.FormatKVs` loop: format the pair at the
end of the buffer; if the key was seen before, compare the new output with
the recorded span — an identical span obsoletes the new output (appended at
the end of the sorted obsolete list, its start being largest), a different
span obsoletes the recorded one (inserted at its sorted position) and the
recorded entry is re-pointed at the new span. -/
def processKV (s : FormatState) (k v : Bytes) : FormatState :=
  let r := KVFormat k v
  let e : obsoleteKV := ⟨k, ⟨s.buf.length, s.buf.length + r.length⟩⟩
  let buf := s.buf ++ r
  match findObsoleteEntry s.existing k with
  | some i =>
    let old := (s.existing[i]?).getD ⟨[], ⟨0, 0⟩⟩
    if byteSlice buf old.itv.start old.itv.stop = byteSlice buf e.itv.start e.itv.stop then
      ⟨buf, s.existing, s.obsolete ++ [e.itv]⟩
    else
      ⟨buf, s.existing.set i ⟨old.key, e.itv⟩, insertObsolete old.itv s.obsolete⟩
  | none => ⟨buf, s.existing ++ [e], s.obsolete⟩

/-- The compaction loop of `Formatter.FormatKVs`: starting after the first
obsolete interval, copy each maximal surviving span (the bytes between the
current position and the next obsolete start, possibly empty) and finally
the tail of the buffer. -/
def compactFrom (all : Bytes) (frm : Nat) : List interval → Bytes
  | [] => all.drop frm
  | o :: rest => byteSlice all frm o.start ++ compactFrom all o.stop rest

/-- The final buffer-rewriting step of `Formatter.FormatKVs`: with no
obsolete intervals the buffer is untouched; otherwise it is truncated to
the first obsolete start and the surviving spans are copied forward. -/
def removeObsolete (buf : Bytes) (obsolete : List interval) : Bytes :=
  match obsolete with
  | [] => buf
  | o :: rest => buf.take o.start ++ compactFrom buf o.stop rest

/-- `Formatter.FormatKVs`: loops over the key/value lists in order,
formatting each pair and recording duplicates, then removes the obsolete
spans. -/
def FormatKVs (kvss : List (List Bytes)) : Bytes :=
  let s := kvss.foldl
    (fun st kvs => (pairsOf kvs).foldl (fun st' p => processKV st' p.1 p.2) st)
    emptyState
  removeObsolete s.buf s.obsolete

/-! ## Abstract model of the de-duplication

The algorithm is related to a per-occurrence model: every formatted pair
becomes one entry (key, rendered chunk, alive flag) in processing order;
the buffer is the concatenation of all chunks, the obsolete intervals are
exactly the spans of the dead entries, and the recorded `existing` entries
point at the spans of the live entries. -/

/-- One formatted occurrence: its key, its rendered output chunk, and
whether it survives de-duplication. -/
structure AEntry where
  key : Bytes
  chunk : Bytes
  alive : Bool
deriving DecidableEq, Repr

/-- The rendered chunk of the live occurrence of a key, if any. -/
def findAlive (A : List AEntry) (k : Bytes) : Option Bytes :=
  (A.find? fun a => a.alive && a.key == k).map (·.chunk)

/-- Marks every live occurrence of a key as dead. -/
def killKey (A : List AEntry) (k : Bytes) : List AEntry :=
  A.map fun a => if a.alive && a.key == k then { a with alive := false } else a

/-- One step of the abstract de-duplication: a fresh key appends a live
occurrence; a key whose live occurrence rendered identically appends a dead
occurrence (the old position survives); otherwise the old occurrence dies
and the new one is appended live. -/
def aStep (A : List AEntry) (k v : Bytes) : List AEntry :=
  let r := KVFormat k v
  match findAlive A k with
  | none => A ++ [⟨k, r, true⟩]
  | some r' =>
    if r' = r then A ++ [⟨k, r, false⟩]
    else killKey A k ++ [⟨k, r, true⟩]

/-- The flattened pair sequence processed by `FormatKVs`. -/
def allPairs (kvss : List (List Bytes)) : List (Bytes × Bytes) :=
  (kvss.map pairsOf).flatten

/-- The abstract model run over a pair sequence. -/
def runA (pairs : List (Bytes × Bytes)) : List AEntry :=
  pairs.foldl (fun A p => aStep A p.1 p.2) []

/-- The concrete loop run over a pair sequence. -/
def runC (pairs : List (Bytes × Bytes)) : FormatState :=
  pairs.foldl (fun s p => processKV s p.1 p.2) emptyState

/-- The surviving key/chunk pairs, in output order. -/
def survivors (A : List AEntry) : List (Bytes × Bytes) :=
  (A.filter (·.alive)).map fun a => (a.key, a.chunk)

/-- The surviving key/chunk pairs of a `FormatKVs` invocation. -/
def survivingKVs (kvss : List (List Bytes)) : List (Bytes × Bytes) :=
  survivors (runA (allPairs kvss))

/-- The rendered value of the last occurrence of a key in a pair sequence. -/
def lastAssigned (pairs : List (Bytes × Bytes)) (k : Bytes) : Option Bytes :=
  ((pairs.filter fun p => p.1 == k).map (·.2)).getLast?

/-- The concatenation of all chunks: the buffer contents before
compaction. -/
def joinChunks (A : List AEntry) : Bytes :=
  (A.map (·.chunk)).flatten

/-- Each occurrence decorated with the buffer interval its chunk occupies,
starting at the given base offset. -/
def withIntervals (base : Nat) : List AEntry → List (AEntry × interval)
  | [] => []
  | a :: rest =>
    (a, ⟨base, base + a.chunk.length⟩) :: withIntervals (base + a.chunk.length) rest

/-- The intervals of the dead occurrences, in buffer order. -/
def deadIn (base : Nat) (A : List AEntry) : List interval :=
  ((withIntervals base A).filter fun p => !p.1.alive).map (·.2)

/-- The keys of the occurrence list in first-occurrence order, without
duplicates: the order in which `existing` entries are appended. -/
def keysOf : List AEntry → List Bytes
  | [] => []
  | a :: rest => a.key :: (keysOf rest).filter fun k => ¬ k == a.key

/-- The first live occurrence of a key, with its interval. -/
def wFind (base : Nat) (A : List AEntry) (k : Bytes) : Option (AEntry × interval) :=
  (withIntervals base A).find? fun p => p.1.alive && p.1.key == k

/-- The interval recorded for a key: the interval of its live occurrence. -/
def itvOf (base : Nat) (A : List AEntry) (k : Bytes) : interval :=
  ((wFind base A k).map (·.2)).getD ⟨0, 0⟩

/-- The coupling invariant between the abstract occurrence list and the
concrete loop state of `Formatter.FormatKVs`: the buffer is the
concatenation of all chunks, the obsolete list holds exactly the intervals
of the dead occurrences (in buffer order), the recorded entries list one
interval per key in first-occurrence order pointing at the key's live
occurrence, every chunk is nonempty, every key has a live occurrence, and
live keys are unique. -/
def Coupled (A : List AEntry) (s : FormatState) : Prop :=
  s.buf = joinChunks A ∧
  s.obsolete = deadIn 0 A ∧
  s.existing = (keysOf A).map (fun k => ⟨k, itvOf 0 A k⟩) ∧
  (∀ a ∈ A, a.chunk ≠ []) ∧
  (∀ a ∈ A, (findAlive A a.key).isSome) ∧
  ((A.filter (·.alive)).map (·.key)).Nodup

/-! ## Routing properties (claims C2, C3, C4) -/

/-- C2: with `toStderr=true` no file write occurs; under the legacy
behavior the record reaches the console for every severity, and under the
new behavior it reaches the console exactly when its severity is at least
`stderrThreshold`. -/
theorem claim_C2_stderr_primary (cfg : ThresholdConfig) (s : Severity)
    (h : cfg.toStderr = true) :
    (route cfg s).toFiles = [] ∧
    (cfg.legacyStderrThresholdBehavior = true → (route cfg s).toConsole = true) ∧
    (cfg.legacyStderrThresholdBehavior = false →
      (route cfg s).toConsole = sevLE cfg.stderrThreshold s) := by
  refine ⟨by simp [route, h], fun hl => by simp [route, h, hl],
    fun hl => by simp [route, h, hl]⟩

/-- Witness for C2 at a concrete configuration. -/
theorem claim_C2_stderr_primary_witness :
    (route ⟨true, false, true, .errorLog, .infoLog⟩ .infoLog).toFiles = [] ∧
    (route ⟨true, false, true, .errorLog, .infoLog⟩ .infoLog).toConsole = true ∧
    (route ⟨true, false, false, .errorLog, .infoLog⟩ .infoLog).toConsole =
      sevLE .errorLog .infoLog :=
  ⟨(claim_C2_stderr_primary _ .infoLog rfl).1,
   (claim_C2_stderr_primary _ .infoLog rfl).2.1 rfl,
   (claim_C2_stderr_primary _ .infoLog rfl).2.2 rfl⟩

/-- C3: with `toStderr=false` the mirror fires exactly when
`severity >= stderrThreshold` or (`alsoToStderr` and
`severity >= alsoStderrThreshold`); with `alsoToStderr=true`,
`alsoStderrThreshold=ERROR` and `stderrThreshold` above WARNING, a WARNING
record reaches only the files while an ERROR record also reaches the
console; with `alsoToStderr=false` the mirror disjunct never fires. -/
theorem claim_C3_mirror_path (cfg : ThresholdConfig) (s : Severity)
    (h : cfg.toStderr = false) :
    ((route cfg s).toConsole =
      (sevLE cfg.stderrThreshold s ||
        (cfg.alsoToStderr && sevLE cfg.alsoStderrThreshold s))) ∧
    (cfg.alsoToStderr = false →
      (route cfg s).toConsole = sevLE cfg.stderrThreshold s) ∧
    (cfg.alsoToStderr = true → cfg.alsoStderrThreshold = .errorLog →
      sevLE cfg.stderrThreshold .warningLog = false →
        (route cfg .warningLog).toConsole = false ∧
        (route cfg .warningLog).toFiles = [.infoLog, .warningLog] ∧
        (route cfg .errorLog).toConsole = true ∧
        (route cfg .errorLog).toFiles = [.infoLog, .warningLog, .errorLog]) := by
  refine ⟨by simp [route, h], fun ha => by simp [route, h, ha], ?_⟩
  intro h1 h2 h3
  have halso : sevLE cfg.alsoStderrThreshold Severity.warningLog = false := by
    rw [h2]; decide
  have halso' : sevLE cfg.alsoStderrThreshold Severity.errorLog = true := by
    rw [h2]; decide
  refine ⟨by simp [route, h, h1, h3, halso], ?_, ?_, ?_⟩
  · simp [route, h, allSeverities]
    decide
  · simp [route, h, h1, halso']
  · simp [route, h, allSeverities]
    decide

/-- Witness for C3 at a concrete configuration. -/
theorem claim_C3_mirror_path_witness :
    ((route ⟨false, true, false, .fatalLog, .errorLog⟩ .warningLog).toConsole =
      (sevLE .fatalLog .warningLog || (true && sevLE .errorLog .warningLog))) ∧
    (route ⟨false, true, false, .fatalLog, .errorLog⟩ .warningLog).toConsole = false ∧
    (route ⟨false, true, false, .fatalLog, .errorLog⟩ .warningLog).toFiles =
      [.infoLog, .warningLog] ∧
    (route ⟨false, true, false, .fatalLog, .errorLog⟩ .errorLog).toConsole = true ∧
    (route ⟨false, true, false, .fatalLog, .errorLog⟩ .errorLog).toFiles =
      [.infoLog, .warningLog, .errorLog] :=
  ⟨(claim_C3_mirror_path _ .warningLog rfl).1,
   ((claim_C3_mirror_path _ .warningLog rfl).2.2 rfl rfl (by decide)).1,
   ((claim_C3_mirror_path _ .warningLog rfl).2.2 rfl rfl (by decide)).2.1,
   ((claim_C3_mirror_path _ .warningLog rfl).2.2 rfl rfl (by decide)).2.2.1,
   ((claim_C3_mirror_path _ .warningLog rfl).2.2 rfl rfl (by decide)).2.2.2⟩

/-- C4: with `toStderr=false` a record of severity `s` is written into the
file writer of every severity `<= s` and into no file writer of a severity
`> s`. -/
theorem claim_C4_cascading_files (cfg : ThresholdConfig) (s s' : Severity)
    (h : cfg.toStderr = false) :
    s' ∈ (route cfg s).toFiles ↔ sevLE s' s = true := by
  simp only [route, h, Bool.false_eq_true, if_false, List.mem_filter]
  constructor
  · exact fun hx => hx.2
  · intro hx
    exact ⟨by cases s' <;> simp [allSeverities], hx⟩

/-- Witness for C4: an ERROR record lands in the INFO, WARNING and ERROR
streams but not in the FATAL stream. -/
theorem claim_C4_cascading_files_witness :
    (Severity.warningLog ∈
      (route ⟨false, false, false, .errorLog, .infoLog⟩ .errorLog).toFiles ↔
      sevLE .warningLog .errorLog = true) ∧
    (Severity.fatalLog ∈
      (route ⟨false, false, false, .errorLog, .infoLog⟩ .errorLog).toFiles ↔
      sevLE .fatalLog .errorLog = true) :=
  ⟨claim_C4_cascading_files _ .errorLog .warningLog rfl,
   claim_C4_cascading_files _ .errorLog .fatalLog rfl⟩

/-! ## Panic recovery (claim C7) -/

/-- C7: each panic-recovering converter renders a panicking renderer as the
literal `<panic: ...>` placeholder (quoted for the text-writer path, whose
partial output stays in the buffer); the converters are total, so the fault
never reaches the caller of the log call. -/
theorem claim_C7_panic_recovered (err bufferSoFar wr : String) :
    StringerToString (.error err) = "<panic: " ++ err ++ ">" ∧
    ErrorToString (.error err) = "<panic: " ++ err ++ ">" ∧
    MarshalerToValue (α := String) (.error err) = .inr ("<panic: " ++ err ++ ">") ∧
    writeTextWriterValue bufferSoFar ⟨wr, some err⟩ =
      bufferSoFar ++ "=" ++ wr ++ "\"<panic: " ++ err ++ ">\"" :=
  ⟨rfl, rfl, rfl, rfl⟩

/-! ## Call-depth decorator (claim C9) -/

/-- C9: `WithCallDepth n` on a call-depth-adjusting decorator with offset
`d` yields a decorator with offset `d + n` (additive composition); the
clone keeps the inner sinks and context binding, and the original value is
untouched (the Go code copies the struct before mutating the copy). -/
theorem claim_C9_callDepth_additive {Sink CV : Type}
    (cls : contextLogSinkDepth Sink CV) (n : Int) :
    (cls.WithCallDepth n).callDepth = cls.callDepth + n ∧
    (cls.WithCallDepth n).logSink = cls.logSink ∧
    (cls.WithCallDepth n).callDepthLogSink = cls.callDepthLogSink ∧
    (cls.WithCallDepth n).cv = cls.cv :=
  ⟨rfl, rfl, rfl, rfl⟩

/-! ## `WithValues` frame conditions (claim C10) -/

/-- C10: `WithValues` returns the old slice itself when no new pairs are
given, and otherwise builds exactly the concatenation of the two inputs
plus the missing-value padding element when the combined length is odd. -/
theorem claim_C10_withValues_frame (oldKV newKV : List Bytes) :
    WithValues oldKV [] = oldKV ∧
    (newKV ≠ [] →
      WithValues oldKV newKV = oldKV ++ newKV ++
        (if (oldKV.length + newKV.length) % 2 ≠ 0 then [missingValue.data] else [])) := by
  constructor
  · simp [WithValues]
  · intro h
    have hlen : ¬ newKV.length = 0 := by
      simpa using fun hl => h (List.length_eq_zero.mp hl)
    rw [WithValues]
    simp only [hlen, if_false]
    split <;> simp_all

/-- Witness for C10 at concrete inputs. -/
theorem claim_C10_withValues_frame_witness :
    WithValues [("a").data] [] = [("a").data] ∧
    WithValues [("a").data] [("b").data] =
      [("a").data] ++ [("b").data] ++
        (if ([("a").data].length + [("b").data].length) % 2 ≠ 0
          then [missingValue.data] else []) :=
  ⟨(claim_C10_withValues_frame [("a").data] []).1,
   (claim_C10_withValues_frame [("a").data] [("b").data]).2 (by decide)⟩

/-! ## Odd-length lists and the missing-value placeholder (claim C8) -/

/-- Appending the missing-value placeholder to an odd-length list does not
change the extracted pairs: the dangling key already receives the
placeholder. -/
theorem pairsOf_append_missing :
    ∀ kvs : List Bytes, kvs.length % 2 = 1 →
      pairsOf (kvs ++ [missingValue.data]) = pairsOf kvs
  | [], h => by simp at h
  | [_], _ => rfl
  | k :: v :: rest, h => by
    have hr : rest.length % 2 = 1 := by
      simp only [List.length_cons] at h
      omega
    simp [pairsOf, pairsOf_append_missing rest hr]

/-- A key dangling after an even-length prefix is paired with the
missing-value placeholder. -/
theorem pairsOf_concat_even :
    ∀ kvs : List Bytes, kvs.length % 2 = 0 → ∀ k,
      pairsOf (kvs ++ [k]) = pairsOf kvs ++ [(k, missingValue.data)]
  | [], _, _ => rfl
  | [_], h, _ => by simp at h
  | x :: v :: rest, h, k => by
    have hr : rest.length % 2 = 0 := by
      simp only [List.length_cons] at h
      omega
    simp [pairsOf, pairsOf_concat_even rest hr k]

/-- C8: in an odd-length key/value list the final key is paired with the
`(MISSING)` placeholder — the pair extraction substitutes the placeholder,
`FormatKVs` output is unchanged by making the substitution explicit, and
`WithValues` pads an odd combined list with the placeholder element. -/
theorem claim_C8_missing_placeholder (kvs evkvs oldKV newKV : List Bytes)
    (k : Bytes) (hodd : kvs.length % 2 = 1) (hev : evkvs.length % 2 = 0)
    (hnew : newKV ≠ []) (hcomb : (oldKV.length + newKV.length) % 2 = 1) :
    pairsOf (evkvs ++ [k]) = pairsOf evkvs ++ [(k, missingValue.data)] ∧
    FormatKVs [kvs] = FormatKVs [kvs ++ [missingValue.data]] ∧
    WithValues oldKV newKV = oldKV ++ newKV ++ [missingValue.data] := by
  refine ⟨pairsOf_concat_even evkvs hev k, ?_, ?_⟩
  · simp only [FormatKVs, List.foldl_cons, List.foldl_nil,
      pairsOf_append_missing kvs hodd]
  · have hlen : ¬ newKV.length = 0 := fun hl => hnew (List.length_eq_zero.mp hl)
    rw [WithValues]
    simp only [hlen, if_false]
    simp [hcomb]

/-- Witness for C8 at concrete inputs. -/
theorem claim_C8_missing_placeholder_witness :
    pairsOf ([] ++ [("a").data]) = pairsOf [] ++ [(("a").data, missingValue.data)] ∧
    FormatKVs [[("a").data]] = FormatKVs [[("a").data] ++ [missingValue.data]] ∧
    WithValues [] [("b").data] = [] ++ [("b").data] ++ [missingValue.data] :=
  claim_C8_missing_placeholder [("a").data] [] [] [("b").data] ("a").data
    (by decide) (by decide) (by decide) (by decide)

/-! ## Multi-line string rendering (claim C6) -/

/-- The newline splitter never returns an empty segment list. -/
theorem splitNL_ne_nil : ∀ v : Bytes, splitNL v ≠ []
  | [] => by simp [splitNL]
  | c :: rest => by
    by_cases h : c = '\n'
    · simp [splitNL, h]
    · simp only [splitNL, if_neg h]
      cases hs : splitNL rest <;> simp

/-- Only the empty input splits into a single empty segment. -/
theorem splitNL_eq_singleton_nil : ∀ v : Bytes, splitNL v = [[]] → v = []
  | [], _ => rfl
  | c :: rest, h => by
    by_cases hc : c = '\n'
    · simp only [splitNL, if_pos hc] at h
      exact absurd (List.cons.injEq _ _ _ _ ▸ h).2 (splitNL_ne_nil rest)
    · simp only [splitNL, if_neg hc] at h
      cases hs : splitNL rest with
      | nil => exact absurd hs (splitNL_ne_nil rest)
      | cons seg segs =>
        rw [hs] at h
        simp at h

/-- Rejoining the segments, each with a newline appended, recovers the
input plus one trailing newline. -/
theorem flatten_splitNL : ∀ v : Bytes,
    ((splitNL v).map fun l => l ++ ['\n']).flatten = v ++ ['\n']
  | [] => by simp [splitNL]
  | c :: rest => by
    by_cases h : c = '\n'
    · simp [splitNL, h, flatten_splitNL rest]
    · simp only [splitNL, if_neg h]
      cases hs : splitNL rest with
      | nil => exact absurd hs (splitNL_ne_nil rest)
      | cons seg segs =>
        have ih := flatten_splitNL rest
        rw [hs] at ih
        simp only [List.map_cons, List.flatten_cons] at ih ⊢
        simp only [List.cons_append, List.append_assoc] at ih ⊢
        rw [ih]

/-- Unfolding of `splitNL` at a newline head. -/
theorem splitNL_cons_nl (rest : Bytes) :
    splitNL ('\n' :: rest) = [] :: splitNL rest := rfl

/-- Unfolding of `splitNL` at a non-newline head. -/
theorem splitNL_cons_ne {c : Char} (h : ¬ c = '\n') {rest seg : Bytes}
    {segs : List Bytes} (hs : splitNL rest = seg :: segs) :
    splitNL (c :: rest) = (c :: seg) :: segs := by
  show (if c = '\n' then [] :: splitNL rest else match splitNL rest with
    | [] => [[c]]
    | seg :: segs => (c :: seg) :: segs) = (c :: seg) :: segs
  rw [if_neg h, hs]

/-- The final segment is empty exactly when the input ends with a
newline. -/
theorem getLast?_splitNL : ∀ v : Bytes, v ≠ [] →
    ((splitNL v).getLast? = some [] ↔ v.getLast? = some '\n')
  | [c], _ => by
    by_cases h : c = '\n'
    · subst h; simp [splitNL]
    · simp [splitNL, h]
  | c :: d :: rest, _ => by
    have ih := getLast?_splitNL (d :: rest) (by simp)
    cases hs : splitNL (d :: rest) with
    | nil => exact absurd hs (splitNL_ne_nil _)
    | cons seg segs =>
      rw [hs] at ih
      by_cases h : c = '\n'
      · subst h
        rw [splitNL_cons_nl, hs, List.getLast?_cons_cons,
          List.getLast?_cons_cons]
        exact ih
      · rw [splitNL_cons_ne h hs, List.getLast?_cons_cons]
        cases segs with
        | nil =>
          simp only [List.getLast?_singleton] at ih ⊢
          constructor
          · intro hx; simp at hx
          · intro hx
            have hseg : seg = [] := by simpa using ih.mpr hx
            subst hseg
            have := splitNL_eq_singleton_nil (d :: rest) hs
            simp at this
        | cons sg sgs =>
          rw [List.getLast?_cons_cons] at ih ⊢
          exact ih

/-- Dropping in front commutes with stripping the trailing empty
segment. -/
theorem stripLastEmpty_cons_cons (a b : Bytes) (l : List Bytes) :
    stripLastEmpty (a :: b :: l) = a :: stripLastEmpty (b :: l) := by
  unfold stripLastEmpty
  rw [List.getLast?_cons_cons]
  split
  · rfl
  · rfl

/-- The emission loop writes one tab-prefixed line (with newline) per
stripped segment, followed by the ` >` terminator. -/
theorem writeLines_eq : ∀ segs : List Bytes, segs ≠ [] →
    writeLines segs =
      ((stripLastEmpty segs).map fun l => '\t' :: (l ++ ['\n'])).flatten ++
        (" >").data
  | [last], _ => by
    by_cases h : last = []
    · subst h
      simp [writeLines, stripLastEmpty]
    · rw [writeLines]
      simp only [List.isEmpty_iff, h, if_false]
      unfold stripLastEmpty
      simp only [List.getLast?_singleton, Option.some.injEq, h, if_false]
      simp [List.append_assoc]
  | seg :: sg :: rest, _ => by
    rw [stripLastEmpty_cons_cons]
    have ih := writeLines_eq (sg :: rest) (by simp)
    simp only [writeLines, List.map_cons, List.flatten_cons, ih]
    simp [List.append_assoc]

/-- C6 (amended): a string value containing a line break is rendered as
`=<`, a newline, each source line prefixed by a tab with its newline, and a
closing ` >` on its own line; rejoining the rendered lines recovers the
value except that a missing trailing line break is normalized to one —
consequently a value ending in a line break renders identically to the same
value without it (the claim's distinguishability assertion fails, as the
source comment itself notes). -/
theorem claim_C6_multiline_block (v : Bytes) (h : v.contains '\n' = true) :
    writeStringValue v =
      ("=<\n").data ++
        (((stripLastEmpty (splitNL v)).map fun l => '\t' :: (l ++ ['\n'])).flatten ++
          (" >").data) ∧
    ((stripLastEmpty (splitNL v)).map fun l => l ++ ['\n']).flatten =
      (if v.getLast? = some '\n' then v else v ++ ['\n']) := by
  have hne : v ≠ [] := by
    intro hv; subst hv; simp at h
  constructor
  · rw [writeStringValue, if_pos h, writeLines_eq _ (splitNL_ne_nil v)]
  · by_cases hlast : (splitNL v).getLast? = some []
    · have hnl : v.getLast? = some '\n' := (getLast?_splitNL v hne).mp hlast
      rw [if_pos hnl]
      have hne' := splitNL_ne_nil v
      have hg : (splitNL v).getLast hne' = [] := by
        have hx := List.getLast?_eq_getLast (splitNL v) hne'
        rw [hx] at hlast
        exact Option.some.inj hlast
      have hsp : (splitNL v).dropLast ++ [[]] = splitNL v := by
        rw [← hg]
        exact List.dropLast_append_getLast hne'
      have hfl := flatten_splitNL v
      rw [← hsp] at hfl
      simp only [List.map_append, List.flatten_append, List.map_cons,
        List.map_nil, List.flatten_cons, List.flatten_nil, List.nil_append,
        List.append_nil] at hfl
      have h2 := List.append_cancel_right hfl
      rw [stripLastEmpty, if_pos hlast]
      exact h2
    · have hnl : ¬ v.getLast? = some '\n' :=
        fun hx => hlast ((getLast?_splitNL v hne).mpr hx)
      rw [if_neg hnl, stripLastEmpty, if_neg hlast]
      exact flatten_splitNL v

/-- C6 counterexample: the values `"a\nb"` and `"a\nb\n"` differ yet render
identically, so the trailing line break is not observable in the output
(the end delimiter is always on the next line). -/
theorem claim_C6_counterexample :
    writeStringValue ("a\nb").data = writeStringValue ("a\nb\n").data ∧
    ("a\nb").data ≠ ("a\nb\n").data :=
  ⟨by decide, by decide⟩

/-- Witness for the amended C6 at the spec's own scenario value. -/
theorem claim_C6_multiline_block_witness :
    (("line1\nline2\n").data.contains '\n' = true) ∧
    (writeStringValue ("line1\nline2\n").data =
      ("=<\n").data ++
        (((stripLastEmpty (splitNL ("line1\nline2\n").data)).map
            fun l => '\t' :: (l ++ ['\n'])).flatten ++ (" >").data) ∧
      ((stripLastEmpty (splitNL ("line1\nline2\n").data)).map
          fun l => l ++ ['\n']).flatten =
        (if ("line1\nline2\n").data.getLast? = some '\n'
          then ("line1\nline2\n").data
          else ("line1\nline2\n").data ++ ['\n'])) :=
  ⟨by decide, claim_C6_multiline_block _ (by decide)⟩

/-! ## Structure of the speculative buffer -/

/-- Every formatted pair produces at least the separator byte. -/
theorem KVFormat_ne_nil (k v : Bytes) : KVFormat k v ≠ [] := by
  simp [KVFormat]

/-- Chunk concatenation over an appended occurrence list. -/
theorem joinChunks_append (A B : List AEntry) :
    joinChunks (A ++ B) = joinChunks A ++ joinChunks B := by
  simp [joinChunks]

/-- Chunk concatenation at a cons. -/
theorem joinChunks_cons (a : AEntry) (A : List AEntry) :
    joinChunks (a :: A) = a.chunk ++ joinChunks A := by
  simp [joinChunks]

/-- The decorated occurrence list projects back to the occurrence list. -/
theorem withIntervals_map_fst :
    ∀ (A : List AEntry) (base : Nat), (withIntervals base A).map (·.1) = A
  | [], _ => rfl
  | a :: rest, base => by
    simp [withIntervals, withIntervals_map_fst rest]

/-- Bounds of a decorated occurrence. -/
theorem mem_withIntervals :
    ∀ (A : List AEntry) (base : Nat) (p : AEntry × interval),
      p ∈ withIntervals base A →
        base ≤ p.2.start ∧ p.2.stop = p.2.start + p.1.chunk.length
  | [], _, _, h => by simp [withIntervals] at h
  | a :: rest, base, p, h => by
    rw [withIntervals] at h
    rcases List.mem_cons.mp h with h | h
    · subst h; exact ⟨Nat.le_refl _, rfl⟩
    · have := mem_withIntervals rest (base + a.chunk.length) p h
      exact ⟨Nat.le_trans (Nat.le_add_right _ _) this.1, this.2⟩

/-- Slicing out a middle section at its exact offsets. -/
theorem byteSlice_exact (x y z : Bytes) :
    byteSlice (x ++ (y ++ z)) x.length (x.length + y.length) = y := by
  rw [byteSlice, List.drop_left, Nat.add_sub_cancel_left, List.take_left]

/-- Slicing the appended tail of a buffer. -/
theorem byteSlice_tail (x y : Bytes) (n : Nat) :
    byteSlice (x ++ y) x.length (x.length + n) = y.take n := by
  rw [byteSlice, List.drop_left, Nat.add_sub_cancel_left]

/-- A decorated occurrence's interval slices out exactly its chunk, in any
buffer that extends the chunk concatenation on both sides. -/
theorem byteSlice_chunk :
    ∀ (A : List AEntry) (pre suf : Bytes) (p : AEntry × interval),
      p ∈ withIntervals pre.length A →
        byteSlice (pre ++ (joinChunks A ++ suf)) p.2.start p.2.stop = p.1.chunk
  | [], _, _, _, h => by simp [withIntervals] at h
  | a :: rest, pre, suf, p, h => by
    rw [withIntervals] at h
    rcases List.mem_cons.mp h with h | h
    · subst h
      rw [joinChunks_cons, List.append_assoc]
      exact byteSlice_exact pre a.chunk (joinChunks rest ++ suf)
    · have hlen : pre.length + a.chunk.length = (pre ++ a.chunk).length := by
        simp
      rw [hlen] at h
      have ih := byteSlice_chunk rest (pre ++ a.chunk) suf p h
      rw [joinChunks_cons]
      rw [show pre ++ (a.chunk ++ joinChunks rest ++ suf) =
        (pre ++ a.chunk) ++ (joinChunks rest ++ suf) by simp]
      exact ih

/-! ## Keys in first-occurrence order -/

/-- Every occurrence's key is listed. -/
theorem mem_keysOf : ∀ (A : List AEntry) (a : AEntry), a ∈ A → a.key ∈ keysOf A
  | [], _, h => by simp at h
  | b :: rest, a, h => by
    rw [keysOf]
    rcases List.mem_cons.mp h with h | h
    · subst h; exact List.mem_cons_self _ _
    · by_cases hk : a.key = b.key
      · rw [hk]; exact List.mem_cons_self _ _
      · refine List.mem_cons_of_mem _ (List.mem_filter.mpr ⟨mem_keysOf rest a h, ?_⟩)
        simp [hk]

/-- Every listed key comes from some occurrence. -/
theorem keysOf_sub : ∀ (A : List AEntry) (k : Bytes),
    k ∈ keysOf A → ∃ a ∈ A, a.key = k
  | [], k, h => by simp [keysOf] at h
  | b :: rest, k, h => by
    rw [keysOf] at h
    rcases List.mem_cons.mp h with h | h
    · exact ⟨b, List.mem_cons_self _ _, h.symm⟩
    · obtain ⟨a, ha, hk⟩ := keysOf_sub rest k (List.mem_filter.mp h).1
      exact ⟨a, List.mem_cons_of_mem _ ha, hk⟩

/-- The listed keys are distinct. -/
theorem keysOf_nodup : ∀ A : List AEntry, (keysOf A).Nodup
  | [] => List.nodup_nil
  | b :: rest => by
    rw [keysOf]
    refine List.Nodup.cons ?_ (List.Nodup.filter _ (keysOf_nodup rest))
    intro hmem
    have := (List.mem_filter.mp hmem).2
    simp at this

/-- A key-preserving rewriting of the occurrences keeps the key list. -/
theorem keysOf_map_keyEq : ∀ (A : List AEntry) (f : AEntry → AEntry),
    (∀ a, (f a).key = a.key) → keysOf (A.map f) = keysOf A
  | [], _, _ => rfl
  | b :: rest, f, hf => by
    simp only [List.map_cons, keysOf, hf, keysOf_map_keyEq rest f hf]

/-- Killing a key does not change the key list. -/
theorem keysOf_killKey (A : List AEntry) (k : Bytes) :
    keysOf (killKey A k) = keysOf A := by
  refine keysOf_map_keyEq A _ fun a => ?_
  by_cases h : a.alive && a.key == k
  · simp [h]
  · simp [h]

/-- Appending one occurrence extends the key list exactly when its key is
new. -/
theorem keysOf_concat : ∀ (A : List AEntry) (e : AEntry),
    keysOf (A ++ [e]) =
      if e.key ∈ keysOf A then keysOf A else keysOf A ++ [e.key]
  | [], e => by simp [keysOf]
  | b :: rest, e => by
    rw [List.cons_append, keysOf, keysOf_concat rest e, keysOf]
    by_cases hmem : e.key ∈ keysOf rest
    · rw [if_pos hmem, if_pos]
      by_cases hk : e.key = b.key
      · rw [hk]; exact List.mem_cons_self _ _
      · refine List.mem_cons_of_mem _ (List.mem_filter.mpr ⟨hmem, by simp [hk]⟩)
    · rw [if_neg hmem, List.filter_append]
      by_cases hk : e.key = b.key
      · have : List.filter (fun k => ¬ k == b.key) [e.key] = [] := by
          simp [List.filter, hk]
        rw [this, List.append_nil, if_pos (by rw [hk]; exact List.mem_cons_self _ _)]
      · have : List.filter (fun k => ¬ k == b.key) [e.key] = [e.key] := by
          simp [List.filter, hk]
        rw [this, if_neg, List.cons_append]
        intro hx
        rcases List.mem_cons.mp hx with hx | hx
        · exact hk hx
        · exact hmem (List.mem_filter.mp hx).1

/-! ## Search toolkit -/

/-- Searching a filtered list searches the conjunction. -/
theorem find?_filter_eq {α : Type} :
    ∀ (l : List α) (p q : α → Bool),
      (l.filter q).find? p = l.find? fun x => q x && p x
  | [], _, _ => rfl
  | a :: rest, p, q => by
    by_cases hq : q a
    · by_cases hp : p a
      · simp [List.filter_cons, hq, List.find?_cons, hp]
      · simp [List.filter_cons, hq, List.find?_cons, hp,
          find?_filter_eq rest p q]
    · simp [List.filter_cons, hq, List.find?_cons, find?_filter_eq rest p q]

/-- The live occurrence found in the occurrence list is the first decorated
occurrence that is live with the right key. -/
theorem findAlive_eq_wFind :
    ∀ (A : List AEntry) (base : Nat) (k : Bytes),
      findAlive A k = (wFind base A k).map (·.1.chunk)
  | [], _, _ => rfl
  | a :: rest, base, k => by
    by_cases h : a.alive && a.key == k
    · simp only [findAlive, wFind, withIntervals, List.find?_cons, h]
      rfl
    · have h' : (a.alive && a.key == k) = false := by simpa using h
      simp only [findAlive, wFind, withIntervals, List.find?_cons, h']
      rw [← findAlive, ← wFind]
      exact findAlive_eq_wFind rest (base + a.chunk.length) k

/-- Decoration of an appended occurrence. -/
theorem withIntervals_concat :
    ∀ (A : List AEntry) (base : Nat) (a : AEntry),
      withIntervals base (A ++ [a]) =
        withIntervals base A ++
          [(a, ⟨base + (joinChunks A).length,
               base + (joinChunks A).length + a.chunk.length⟩)]
  | [], base, a => by simp [withIntervals, joinChunks]
  | b :: rest, base, a => by
    rw [List.cons_append, withIntervals, withIntervals,
      withIntervals_concat rest (base + b.chunk.length) a]
    simp [joinChunks_cons, Nat.add_assoc]

/-- Decoration after killing a key: flags flip, intervals stay. -/
theorem withIntervals_killKey :
    ∀ (A : List AEntry) (base : Nat) (k : Bytes),
      withIntervals base (killKey A k) =
        (withIntervals base A).map fun p =>
          (if p.1.alive && p.1.key == k then { p.1 with alive := false } else p.1,
           p.2)
  | [], _, _ => rfl
  | a :: rest, base, k => by
    have hchunk : (if a.alive && a.key == k
        then { a with alive := false } else a).chunk = a.chunk := by
      split <;> rfl
    show withIntervals base
        ((if a.alive && a.key == k then { a with alive := false } else a) ::
          killKey rest k) = _
    rw [withIntervals, hchunk, withIntervals_killKey rest (base + a.chunk.length) k,
      withIntervals, List.map_cons]

/-- Chunks survive killing a key. -/
theorem joinChunks_killKey (A : List AEntry) (k : Bytes) :
    joinChunks (killKey A k) = joinChunks A := by
  rw [joinChunks, joinChunks, killKey, List.map_map]
  congr 1
  refine List.map_congr_left fun a _ => ?_
  simp only [Function.comp_apply]
  split <;> rfl

/-- No live occurrence of a key survives killing it. -/
theorem findAlive_killKey_self (A : List AEntry) (k : Bytes) :
    findAlive (killKey A k) k = none := by
  rw [findAlive, Option.map_eq_none']
  rw [List.find?_eq_none]
  intro x hx
  obtain ⟨a, _, rfl⟩ := List.mem_map.mp hx
  by_cases h : a.alive && a.key == k
  · simp only [if_pos h]
    simp
  · simp only [if_neg h]
    simpa using h

/-- Killing one key leaves the live occurrences of other keys alone. -/
theorem findAlive_killKey_ne :
    ∀ (A : List AEntry) (k' k : Bytes), k' ≠ k →
      findAlive (killKey A k') k = findAlive A k
  | [], _, _, _ => rfl
  | a :: rest, k', k, hne => by
    rw [killKey, List.map_cons]
    by_cases h : a.alive && a.key == k'
    · rw [if_pos h]
      have hk : (a.key == k) = false := by
        have : a.key = k' := by
          have := (Bool.and_eq_true _ _).mp h
          exact beq_iff_eq.mp this.2
        simp [this, hne]
      rw [findAlive, findAlive, List.find?_cons, List.find?_cons]
      simp only [hk, Bool.and_false]
      have : killKey rest k' = List.map
          (fun a => if a.alive && a.key == k' then { a with alive := false } else a)
          rest := rfl
      rw [← this, ← findAlive, ← findAlive]
      exact findAlive_killKey_ne rest k' k hne
    · rw [if_neg h]
      rw [findAlive, findAlive, List.find?_cons, List.find?_cons]
      by_cases hp : a.alive && a.key == k
      · simp [hp]
      · simp only [hp, if_false, if_neg]
        have : killKey rest k' = List.map
            (fun a => if a.alive && a.key == k' then { a with alive := false } else a)
            rest := rfl
        rw [← this, ← findAlive, ← findAlive]
        exact findAlive_killKey_ne rest k' k hne

/-! ## Dead intervals -/

/-- Dead intervals at a cons. -/
theorem deadIn_cons (a : AEntry) (A : List AEntry) (base : Nat) :
    deadIn base (a :: A) =
      (if a.alive then [] else [⟨base, base + a.chunk.length⟩]) ++
        deadIn (base + a.chunk.length) A := by
  rw [deadIn, withIntervals, List.filter_cons]
  by_cases h : a.alive
  · simp [h, deadIn]
  · simp [h, deadIn]

/-- Dead intervals of an appended occurrence. -/
theorem deadIn_concat (A : List AEntry) (a : AEntry) (base : Nat) :
    deadIn base (A ++ [a]) =
      deadIn base A ++
        (if a.alive then []
          else [⟨base + (joinChunks A).length,
                base + (joinChunks A).length + a.chunk.length⟩]) := by
  rw [deadIn, withIntervals_concat, List.filter_append, List.map_append, ← deadIn]
  congr 1
  by_cases h : a.alive
  · simp [h]
  · simp [h]

/-- Dead intervals start at or after the base offset. -/
theorem deadIn_start_ge (A : List AEntry) (base : Nat) :
    ∀ o ∈ deadIn base A, base ≤ o.start := by
  intro o ho
  rw [deadIn] at ho
  obtain ⟨p, hp, rfl⟩ := List.mem_map.mp ho
  exact (mem_withIntervals A base p (List.mem_filter.mp hp).1).1

/-- Unpacking a successful search for a live occurrence. -/
theorem wFind_spec {A : List AEntry} {base : Nat} {k : Bytes}
    {p : AEntry × interval} (h : wFind base A k = some p) :
    p ∈ withIntervals base A ∧ p.1.alive = true ∧ p.1.key = k := by
  have hmem := List.mem_of_find?_eq_some h
  have hpred := List.find?_some h
  have := (Bool.and_eq_true _ _).mp hpred
  exact ⟨hmem, this.1, beq_iff_eq.mp this.2⟩

/-- The interval of a found live occurrence starts at or after the base. -/
theorem wFind_start_ge {A : List AEntry} {base : Nat} {k : Bytes}
    {p : AEntry × interval} (h : wFind base A k = some p) :
    base ≤ p.2.start :=
  (mem_withIntervals A base p (wFind_spec h).1).1

/-- Unfolding of the ordered insertion at a cons. -/
theorem insertObsolete_cons (o x : interval) (rest : List interval) :
    insertObsolete o (x :: rest) =
      if o.start ≤ x.start then o :: x :: rest
      else x :: insertObsolete o rest := rfl

/-- Inserting in front when the new interval precedes every listed one. -/
theorem insertObsolete_front (o : interval) :
    ∀ obs : List interval, (∀ x ∈ obs, o.start ≤ x.start) →
      insertObsolete o obs = o :: obs
  | [], _ => rfl
  | x :: rest, h => by
    rw [insertObsolete, if_pos (h x (List.mem_cons_self _ _))]

/-- Killing a key that has no live occurrence is a no-op. -/
theorem killKey_eq_of_none {A : List AEntry} {k : Bytes}
    (h : findAlive A k = none) : killKey A k = A := by
  rw [findAlive, Option.map_eq_none', List.find?_eq_none] at h
  rw [killKey]
  refine (List.map_congr_left fun a ha => if_neg (h a ha)).trans (List.map_id _)

/-- A key outside the live keys has no live occurrence. -/
theorem findAlive_eq_none_of_not_mem {A : List AEntry} {k : Bytes}
    (h : k ∉ (A.filter (·.alive)).map (·.key)) : findAlive A k = none := by
  rw [findAlive, Option.map_eq_none', List.find?_eq_none]
  intro a ha hpred
  have := (Bool.and_eq_true _ _).mp hpred
  refine h (List.mem_map.mpr ⟨a, List.mem_filter.mpr ⟨ha, this.1⟩, beq_iff_eq.mp this.2⟩)

/-- A live occurrence makes the key search succeed. -/
theorem findAlive_isSome_of_mem {A : List AEntry} {a : AEntry}
    (ha : a ∈ A) (halive : a.alive = true) : (findAlive A a.key).isSome := by
  rw [findAlive]
  cases hf : A.find? fun x => x.alive && x.key == a.key with
  | some p => simp
  | none =>
    rw [List.find?_eq_none] at hf
    exact absurd (by simp [halive]) (hf a ha)

/-- Killing the key of the unique live occurrence turns exactly its
interval dead, at the sorted position the concrete loop computes. -/
theorem deadIn_killKey_insert :
    ∀ (A : List AEntry) (base : Nat) (k : Bytes) (p : AEntry × interval),
      (∀ a ∈ A, a.chunk ≠ []) →
      ((A.filter (·.alive)).map (·.key)).Nodup →
      wFind base A k = some p →
        deadIn base (killKey A k) =
          insertObsolete p.2 (deadIn base A)
  | [], _, _, _, _, _, h => by simp [wFind, withIntervals] at h
  | a :: A, base, k, p, hchunk, hnodup, h => by
    have hkill : killKey (a :: A) k =
        (if a.alive && a.key == k then { a with alive := false } else a) ::
          killKey A k := rfl
    by_cases ha : a.alive && a.key == k
    · -- the head is the live occurrence of `k`
      have hp : p = (a, ⟨base, base + a.chunk.length⟩) := by
        rw [wFind, withIntervals] at h
        simp only [List.find?_cons, ha, Option.some.injEq] at h
        exact h.symm
      have haa : a.alive = true := ((Bool.and_eq_true _ _).mp ha).1
      have hak : a.key = k := beq_iff_eq.mp ((Bool.and_eq_true _ _).mp ha).2
      have hnone : findAlive A k = none := by
        refine findAlive_eq_none_of_not_mem ?_
        intro hmem
        have : (List.filter (·.alive) (a :: A)).map (·.key) =
            a.key :: (A.filter (·.alive)).map (·.key) := by
          simp [List.filter_cons, haa]
        rw [this] at hnodup
        rw [← hak] at hmem
        exact (List.nodup_cons.mp hnodup).1 hmem
      rw [hkill, if_pos ha, killKey_eq_of_none hnone]
      rw [deadIn_cons, deadIn_cons]
      simp only [haa, if_true, if_false, Bool.false_eq_true, List.nil_append]
      rw [hp]
      refine (insertObsolete_front _ _ fun x hx => ?_).symm
      exact Nat.le_trans (Nat.le_add_right _ _) (deadIn_start_ge A _ x hx)
    · -- the head is not the live occurrence of `k`
      have ha' : (a.alive && a.key == k) = false := by simpa using ha
      have htail : wFind (base + a.chunk.length) A k = some p := by
        rw [wFind, withIntervals] at h
        simp only [List.find?_cons, ha'] at h
        exact h
      have hnodup' : ((A.filter (·.alive)).map (·.key)).Nodup := by
        by_cases haa : a.alive
        · have : (List.filter (·.alive) (a :: A)).map (·.key) =
              a.key :: (A.filter (·.alive)).map (·.key) := by
            simp [List.filter_cons, haa]
          rw [this] at hnodup
          exact (List.nodup_cons.mp hnodup).2
        · have : List.filter (·.alive) (a :: A) = A.filter (·.alive) := by
            simp [List.filter_cons, haa]
          rwa [this] at hnodup
      have ih := deadIn_killKey_insert A (base + a.chunk.length) k p
        (fun x hx => hchunk x (List.mem_cons_of_mem _ hx)) hnodup' htail
      rw [hkill, if_neg ha, deadIn_cons, deadIn_cons, ih]
      by_cases haa : a.alive
      · simp [haa]
      · simp only [haa, if_false, Bool.false_eq_true, List.singleton_append]
        rw [insertObsolete_cons, if_neg (by
          show ¬ p.2.start ≤ base
          have hplen : base + a.chunk.length ≤ p.2.start := wFind_start_ge htail
          have hcl : a.chunk.length ≠ 0 := by
            simpa using hchunk a (List.mem_cons_self _ _)
          omega)]

/-! ## Searches under append and kill -/

/-- Search in a singleton list. -/
theorem find?_singleton {α : Type} (p : α → Bool) (a : α) :
    List.find? p [a] = if p a then some a else none := by
  rw [List.find?_cons]
  by_cases h : p a
  · simp [h]
  · simp [h]

/-- Live search over an appended occurrence. -/
theorem findAlive_concat (A : List AEntry) (a : AEntry) (k : Bytes) :
    findAlive (A ++ [a]) k =
      (findAlive A k).or
        (if a.alive && a.key == k then some a.chunk else none) := by
  rw [findAlive, findAlive, List.find?_append, find?_singleton]
  cases hf : A.find? fun x => x.alive && x.key == k with
  | some x => simp
  | none =>
    by_cases h : a.alive && a.key == k
    · simp [h]
    · simp [h]

/-- Decorated live search over an appended occurrence. -/
theorem wFind_concat (A : List AEntry) (a : AEntry) (base : Nat) (k : Bytes) :
    wFind base (A ++ [a]) k =
      (wFind base A k).or
        (if a.alive && a.key == k then
          some (a, ⟨base + (joinChunks A).length,
                    base + (joinChunks A).length + a.chunk.length⟩)
          else none) := by
  rw [wFind, wFind, withIntervals_concat, List.find?_append, find?_singleton]

/-- Decorated live search ignores killing a different key. -/
theorem wFind_killKey_ne :
    ∀ (A : List AEntry) (base : Nat) (k' k : Bytes), k' ≠ k →
      wFind base (killKey A k') k = wFind base A k
  | [], _, _, _, _ => rfl
  | a :: A, base, k', k, hne => by
    have hkill : killKey (a :: A) k' =
        (if a.alive && a.key == k' then { a with alive := false } else a) ::
          killKey A k' := rfl
    rw [hkill]
    by_cases h : a.alive && a.key == k'
    · have hk : (a.key == k) = false := by
        have : a.key = k' := beq_iff_eq.mp ((Bool.and_eq_true _ _).mp h).2
        simp [this, hne]
      rw [if_pos h, wFind, withIntervals, wFind, withIntervals]
      simp only [List.find?_cons, hk, Bool.and_false]
      have hchunk : ({ a with alive := false } : AEntry).chunk = a.chunk := rfl
      rw [hchunk, ← wFind, ← wFind]
      exact wFind_killKey_ne A (base + a.chunk.length) k' k hne
    · rw [if_neg h, wFind, withIntervals, wFind, withIntervals]
      by_cases hp : a.alive && a.key == k
      · simp only [List.find?_cons, hp]
      · have hp' : (a.alive && a.key == k) = false := by simpa using hp
        simp only [List.find?_cons, hp']
        rw [← wFind, ← wFind]
        exact wFind_killKey_ne A (base + a.chunk.length) k' k hne

/-- No decorated live occurrence of a killed key. -/
theorem wFind_killKey_self (A : List AEntry) (base : Nat) (k : Bytes) :
    wFind base (killKey A k) k = none := by
  rw [wFind, List.find?_eq_none]
  intro p hp
  rw [withIntervals_killKey] at hp
  obtain ⟨q, _, rfl⟩ := List.mem_map.mp hp
  by_cases h : q.1.alive && q.1.key == k
  · simp only [if_pos h]
    simp
  · simp only [if_neg h]
    simpa using h

/-! ## The recorded-entries map -/

/-- A key absent from the key list is not found among the recorded
entries. -/
theorem findObsoleteEntry_map_none :
    ∀ (ks : List Bytes) (f : Bytes → obsoleteKV) (k : Bytes),
      (∀ k', (f k').key = k') → k ∉ ks →
        findObsoleteEntry (ks.map f) k = none
  | [], _, _, _, _ => rfl
  | a :: ks, f, k, hf, hmem => by
    rw [List.map_cons, findObsoleteEntry]
    have : (((f a).key) == k) = false := by
      rw [hf a]
      have : a ≠ k := fun h => hmem (h ▸ List.mem_cons_self _ _)
      simp [this]
    rw [if_neg (by simp [this])]
    rw [findObsoleteEntry_map_none ks f k hf fun h => hmem (List.mem_cons_of_mem _ h)]
    rfl

/-- A listed key is found at its position; the recorded entry there is its
image, and updating that position rewrites the whole map pointwise at the
key. -/
theorem findObsoleteEntry_map_some :
    ∀ (ks : List Bytes) (f g : Bytes → obsoleteKV) (k : Bytes),
      (∀ k', (f k').key = k') → ks.Nodup → k ∈ ks →
      (∀ k' ∈ ks, k' ≠ k → f k' = g k') →
        ∃ i, findObsoleteEntry (ks.map f) k = some i ∧
          (ks.map f)[i]? = some (f k) ∧
          (ks.map f).set i (g k) = ks.map g
  | [], _, _, _, _, _, hmem, _ => by simp at hmem
  | a :: ks, f, g, k, hf, hnodup, hmem, hfg => by
    by_cases hak : a = k
    · subst hak
      refine ⟨0, ?_, ?_, ?_⟩
      · rw [List.map_cons, findObsoleteEntry, if_pos (by simp [hf a])]
      · simp
      · rw [List.map_cons, List.map_cons, List.set]
        congr 1
        refine List.map_congr_left fun k' hk' => ?_
        refine hfg k' (List.mem_cons_of_mem _ hk') ?_
        intro hk
        subst hk
        exact (List.nodup_cons.mp hnodup).1 hk'
    · have hmem' : k ∈ ks := by
        rcases List.mem_cons.mp hmem with h | h
        · exact absurd h.symm hak
        · exact h
      obtain ⟨i, h1, h2, h3⟩ := findObsoleteEntry_map_some ks f g k hf
        (List.nodup_cons.mp hnodup).2 hmem'
        (fun k' hk' => hfg k' (List.mem_cons_of_mem _ hk'))
      refine ⟨i + 1, ?_, ?_, ?_⟩
      · rw [List.map_cons, findObsoleteEntry, if_neg (by simp [hf a, hak]), h1]
        rfl
      · rw [List.map_cons]
        simpa using h2
      · rw [List.map_cons, List.map_cons, List.set]
        rw [h3, hfg a (List.mem_cons_self _ _) hak]

/-! ## Support lemmas for the step proof -/

theorem findAlive_eq_none_of_not_keysOf {A : List AEntry} {k : Bytes}
    (h : k ∉ keysOf A) : findAlive A k = none := by
  rw [findAlive, Option.map_eq_none', List.find?_eq_none]
  intro a ha hpred
  have hk : a.key = k := beq_iff_eq.mp ((Bool.and_eq_true _ _).mp hpred).2
  exact h (hk ▸ mem_keysOf A a ha)

theorem filter_alive_killKey :
    ∀ (A : List AEntry) (k : Bytes),
      (killKey A k).filter (·.alive) =
        (A.filter (·.alive)).filter fun a => !(a.key == k)
  | [], _ => rfl
  | a :: A, k => by
    have hkill : killKey (a :: A) k =
        (if a.alive && a.key == k then { a with alive := false } else a) ::
          killKey A k := rfl
    rw [hkill]
    have ih := filter_alive_killKey A k
    by_cases h1 : a.alive
    · by_cases h2 : a.key == k
      · simp [List.filter_cons, h1, h2, ih]
      · simp [List.filter_cons, h1, h2, ih]
    · simp [List.filter_cons, h1, ih]

theorem map_key_filter_key (F : List AEntry) (k : Bytes) :
    (F.filter fun a => !(a.key == k)).map (·.key) =
      (F.map (·.key)).filter fun kk => !(kk == k) := by
  induction F with
  | nil => rfl
  | cons a F ih => by_cases h : a.key == k <;> simp [List.filter_cons, h, ih]

theorem mem_killKey {A : List AEntry} {k : Bytes} {a : AEntry}
    (h : a ∈ killKey A k) : ∃ a₀ ∈ A, a.key = a₀.key ∧ a.chunk = a₀.chunk := by
  obtain ⟨a₀, ha₀, rfl⟩ := List.mem_map.mp h
  refine ⟨a₀, ha₀, ?_, ?_⟩ <;> (by_cases hc : a₀.alive && a₀.key == k) <;> simp [hc]

/-! ## The simulation step -/

theorem Coupled_step {A : List AEntry} {s : FormatState} (k v : Bytes)
    (h : Coupled A s) : Coupled (aStep A k v) (processKV s k v) := by
  obtain ⟨hbuf, hobs, hex, hch, hlive, hnodup⟩ := h
  by_cases hmem : k ∈ keysOf A
  · -- the key was formatted before
    obtain ⟨a0, ha0, hka⟩ := keysOf_sub A k hmem
    have hsome0 : (findAlive A k).isSome := by
      have := hlive a0 ha0
      rwa [hka] at this
    cases hwc : wFind 0 A k with
    | none =>
      exfalso
      rw [findAlive_eq_wFind A 0 k, hwc] at hsome0
      simp at hsome0
    | some p =>
    have hfa : findAlive A k = some p.1.chunk := by
      rw [findAlive_eq_wFind A 0 k, hwc]
      rfl
    obtain ⟨hpmem, hpalive, hpkey⟩ := wFind_spec hwc
    have hitv : itvOf 0 A k = p.2 := by
      rw [itvOf, hwc]
      rfl
    have hsliceOld :
        byteSlice (s.buf ++ KVFormat k v) p.2.start p.2.stop = p.1.chunk := by
      rw [hbuf]
      simpa using byteSlice_chunk A [] (KVFormat k v) p hpmem
    have hsliceNew :
        byteSlice (s.buf ++ KVFormat k v) s.buf.length
          (s.buf.length + (KVFormat k v).length) = KVFormat k v := by
      rw [byteSlice_tail]
      exact List.take_length _
    by_cases hcr : p.1.chunk = KVFormat k v
    · -- identical rendering: the new occurrence is obsoleted
      obtain ⟨i, hfind, hget, -⟩ := findObsoleteEntry_map_some (keysOf A)
        (fun k' => ⟨k', itvOf 0 A k'⟩) (fun k' => ⟨k', itvOf 0 A k'⟩) k
        (fun _ => rfl) (keysOf_nodup A) hmem (fun _ _ _ => rfl)
      have hstep : aStep A k v = A ++ [⟨k, KVFormat k v, false⟩] := by
        simp only [aStep, hfa]
        rw [if_pos hcr]
      have hproc : processKV s k v =
          ⟨s.buf ++ KVFormat k v, s.existing,
            s.obsolete ++
              [⟨s.buf.length, s.buf.length + (KVFormat k v).length⟩]⟩ := by
        simp only [processKV, hex, hfind, hget, Option.getD_some, hitv,
          hsliceOld, hsliceNew]
        rw [if_pos hcr]
      rw [hstep, hproc]
      refine ⟨?_, ?_, ?_, ?_, ?_, ?_⟩ <;> dsimp only
      · rw [hbuf, joinChunks_append]
        simp [joinChunks]
      · rw [hobs, hbuf, deadIn_concat]
        simp
      · rw [keysOf_concat]
        rw [if_pos hmem, hex]
        refine List.map_congr_left fun k' _ => ?_
        rw [itvOf, itvOf, wFind_concat]
        have hbeq : ((⟨k, KVFormat k v, false⟩ : AEntry).alive &&
            (⟨k, KVFormat k v, false⟩ : AEntry).key == k') = false := by simp
        simp only [hbeq, Bool.false_eq_true, if_false, Option.or_none]
      · intro a ha
        rcases List.mem_append.mp ha with ha | ha
        · exact hch a ha
        · rcases List.mem_singleton.mp ha with rfl
          exact KVFormat_ne_nil k v
      · intro a ha
        have hor : ∀ x : Bytes, findAlive (A ++ [⟨k, KVFormat k v, false⟩]) x =
            findAlive A x := by
          intro x
          rw [findAlive_concat]
          have hbeq : ((⟨k, KVFormat k v, false⟩ : AEntry).alive &&
              (⟨k, KVFormat k v, false⟩ : AEntry).key == x) = false := by simp
          simp only [hbeq, Bool.false_eq_true, if_false, Option.or_none]
        rcases List.mem_append.mp ha with ha | ha
        · rw [hor]
          exact hlive a ha
        · rcases List.mem_singleton.mp ha with rfl
          rw [hor]
          dsimp only
          rw [hfa]
          rfl
      · rw [List.filter_append]
        have : List.filter (·.alive) [(⟨k, KVFormat k v, false⟩ : AEntry)] = [] := by
          simp
        rw [this, List.append_nil]
        exact hnodup
    · -- different rendering: the old occurrence is obsoleted
      have hfg : ∀ k' ∈ keysOf A, k' ≠ k →
          (fun k' => (⟨k', itvOf 0 A k'⟩ : obsoleteKV)) k' =
            (fun k' => (⟨k', itvOf 0
              (killKey A k ++ [⟨k, KVFormat k v, true⟩]) k'⟩ : obsoleteKV)) k' := by
        intro k' _ hne
        dsimp only
        congr 1
        rw [itvOf, itvOf, wFind_concat,
          wFind_killKey_ne A 0 k k' (Ne.symm hne)]
        have hbeq : ((⟨k, KVFormat k v, true⟩ : AEntry).alive &&
            (⟨k, KVFormat k v, true⟩ : AEntry).key == k') = false := by
          simp [Ne.symm hne]
        simp only [hbeq, Bool.false_eq_true, if_false, Option.or_none]
      obtain ⟨i, hfind, hget, hset⟩ := findObsoleteEntry_map_some (keysOf A)
        (fun k' => ⟨k', itvOf 0 A k'⟩)
        (fun k' => ⟨k', itvOf 0 (killKey A k ++ [⟨k, KVFormat k v, true⟩]) k'⟩) k
        (fun _ => rfl) (keysOf_nodup A) hmem hfg
      have hitvNew : itvOf 0 (killKey A k ++ [⟨k, KVFormat k v, true⟩]) k =
          ⟨(joinChunks A).length, (joinChunks A).length + (KVFormat k v).length⟩ := by
        rw [itvOf, wFind_concat, wFind_killKey_self, Option.none_or]
        have hbeq : ((⟨k, KVFormat k v, true⟩ : AEntry).alive &&
            (⟨k, KVFormat k v, true⟩ : AEntry).key == k) = true := by simp
        rw [if_pos hbeq]
        simp [joinChunks_killKey]
      have hstep : aStep A k v = killKey A k ++ [⟨k, KVFormat k v, true⟩] := by
        simp only [aStep, hfa]
        rw [if_neg hcr]
      have hproc : processKV s k v =
          ⟨s.buf ++ KVFormat k v,
            ((keysOf A).map fun k' => ⟨k', itvOf 0 A k'⟩).set i
              ⟨k, ⟨s.buf.length, s.buf.length + (KVFormat k v).length⟩⟩,
            insertObsolete p.2 s.obsolete⟩ := by
        simp only [processKV, hex, hfind, hget, Option.getD_some, hitv,
          hsliceOld, hsliceNew]
        rw [if_neg hcr]
      rw [hstep, hproc]
      refine ⟨?_, ?_, ?_, ?_, ?_, ?_⟩ <;> dsimp only
      · rw [hbuf, joinChunks_append, joinChunks_killKey]
        simp [joinChunks]
      · rw [hobs, deadIn_concat]
        have : deadIn 0 (killKey A k) = insertObsolete p.2 (deadIn 0 A) :=
          deadIn_killKey_insert A 0 k p hch hnodup hwc
        rw [this]
        simp
      · rw [keysOf_concat, keysOf_killKey, if_pos hmem]
        have hbufitv : (⟨k, ⟨s.buf.length,
            s.buf.length + (KVFormat k v).length⟩⟩ : obsoleteKV) =
            ⟨k, itvOf 0 (killKey A k ++ [⟨k, KVFormat k v, true⟩]) k⟩ := by
          rw [hitvNew, hbuf]
        rw [hbufitv, hset]
      · intro a ha
        rcases List.mem_append.mp ha with ha | ha
        · obtain ⟨a₀, ha₀, -, hchunk⟩ := mem_killKey ha
          rw [hchunk]
          exact hch a₀ ha₀
        · rcases List.mem_singleton.mp ha with rfl
          exact KVFormat_ne_nil k v
      · intro a ha
        rw [findAlive_concat]
        by_cases hak : a.key = k
        · rw [hak]
          have hbeq : ((⟨k, KVFormat k v, true⟩ : AEntry).alive &&
              (⟨k, KVFormat k v, true⟩ : AEntry).key == k) = true := by simp
          rw [if_pos hbeq]
          cases findAlive (killKey A k) k <;> simp
        · have hne : k ≠ a.key := fun hx => hak hx.symm
          have hbeq : ((⟨k, KVFormat k v, true⟩ : AEntry).alive &&
              (⟨k, KVFormat k v, true⟩ : AEntry).key == a.key) = false := by
            simp [hne]
          simp only [hbeq, Bool.false_eq_true, if_false, Option.or_none]
          rw [findAlive_killKey_ne A k a.key hne]
          rcases List.mem_append.mp ha with ha | ha
          · obtain ⟨a₀, ha₀, hkey, -⟩ := mem_killKey ha
            rw [hkey]
            exact hlive a₀ ha₀
          · rcases List.mem_singleton.mp ha with rfl
            exact absurd rfl hak
      · rw [List.filter_append, List.map_append, filter_alive_killKey]
        have hone : List.filter (·.alive) [(⟨k, KVFormat k v, true⟩ : AEntry)] =
            [⟨k, KVFormat k v, true⟩] := by simp
        rw [hone, List.map_singleton, map_key_filter_key, List.nodup_append]
        refine ⟨List.Nodup.filter _ hnodup, by simp, ?_⟩
        intro x hx
        have hxne := (List.mem_filter.mp hx).2
        simp only [List.mem_singleton]
        intro hxk
        subst hxk
        simp at hxne
  · -- fresh key
    have hofind : findObsoleteEntry s.existing k = none := by
      rw [hex]
      exact findObsoleteEntry_map_none _ _ _ (fun _ => rfl) hmem
    have hfa : findAlive A k = none := findAlive_eq_none_of_not_keysOf hmem
    have hw : wFind 0 A k = none := by
      have := findAlive_eq_wFind A 0 k
      rw [hfa] at this
      exact Option.map_eq_none'.mp this.symm
    have hstep : aStep A k v = A ++ [⟨k, KVFormat k v, true⟩] := by
      simp only [aStep, hfa]
    have hproc : processKV s k v =
        ⟨s.buf ++ KVFormat k v,
          s.existing ++
            [⟨k, ⟨s.buf.length, s.buf.length + (KVFormat k v).length⟩⟩],
          s.obsolete⟩ := by
      simp only [processKV, hofind]
    rw [hstep, hproc]
    refine ⟨?_, ?_, ?_, ?_, ?_, ?_⟩ <;> dsimp only
    · rw [hbuf, joinChunks_append]
      simp [joinChunks]
    · rw [hobs, deadIn_concat]
      simp
    · rw [keysOf_concat, if_neg hmem, List.map_append, hex, hbuf]
      congr 1
      · refine List.map_congr_left fun k' hk' => ?_
        have hne : k ≠ k' := fun hx => hmem (hx ▸ hk')
        rw [itvOf, itvOf, wFind_concat]
        have hbeq : (true && k == k') = false := by simp [hne]
        have : ((⟨k, KVFormat k v, true⟩ : AEntry).alive &&
            (⟨k, KVFormat k v, true⟩ : AEntry).key == k') = false := hbeq
        simp only [this, Bool.false_eq_true, if_false, Option.or_none]
      · have hitv : itvOf 0 (A ++ [⟨k, KVFormat k v, true⟩]) k =
            ⟨(joinChunks A).length,
             (joinChunks A).length + (KVFormat k v).length⟩ := by
          rw [itvOf, wFind_concat, hw, Option.none_or]
          have hbeq : ((⟨k, KVFormat k v, true⟩ : AEntry).alive &&
              (⟨k, KVFormat k v, true⟩ : AEntry).key == k) = true := by simp
          rw [if_pos hbeq]
          simp
        rw [List.map_singleton]
        simp [hitv]
    · intro a ha
      rcases List.mem_append.mp ha with ha | ha
      · exact hch a ha
      · rcases List.mem_singleton.mp ha with rfl
        exact KVFormat_ne_nil k v
    · intro a ha
      rcases List.mem_append.mp ha with ha | ha
      · rw [findAlive_concat]
        have := hlive a ha
        cases hx : findAlive A a.key with
        | some c => simp
        | none => rw [hx] at this; simp at this
      · rcases List.mem_singleton.mp ha with rfl
        rw [findAlive_concat, hfa]
        simp
    · rw [List.filter_append, List.map_append]
      have hfilter : List.filter (·.alive) [(⟨k, KVFormat k v, true⟩ : AEntry)] =
          [⟨k, KVFormat k v, true⟩] := by simp
      rw [hfilter]
      rw [List.nodup_append]
      refine ⟨hnodup, by simp, ?_⟩
      intro x hx
      simp only [List.map_singleton, List.mem_singleton]
      intro hxk
      subst hxk
      obtain ⟨a, ha, rfl⟩ := List.mem_map.mp hx
      exact hmem (mem_keysOf A a (List.mem_filter.mp ha).1)

/-! ## Running the simulation -/

theorem Coupled_nil : Coupled [] emptyState := by
  refine ⟨rfl, rfl, rfl, ?_, ?_, ?_⟩ <;>
    simp [joinChunks, deadIn, withIntervals, keysOf, emptyState]

theorem Coupled_run :
    ∀ (pairs : List (Bytes × Bytes)) (A : List AEntry) (s : FormatState),
      Coupled A s →
        Coupled (pairs.foldl (fun A p => aStep A p.1 p.2) A)
          (pairs.foldl (fun s p => processKV s p.1 p.2) s)
  | [], _, _, h => h
  | p :: pairs, A, s, h =>
    Coupled_run pairs (aStep A p.1 p.2) (processKV s p.1 p.2)
      (Coupled_step p.1 p.2 h)

/-! ## Correctness of the compaction pass -/

theorem compactFrom_split (all : Bytes) (frm frm' : Nat) (obs : List interval)
    (h1 : frm ≤ frm') (h2 : ∀ o ∈ obs.head?, frm' ≤ o.start) :
    compactFrom all frm obs = byteSlice all frm frm' ++ compactFrom all frm' obs := by
  cases obs with
  | nil =>
    show all.drop frm = byteSlice all frm frm' ++ all.drop frm'
    rw [byteSlice]
    have hdd : List.drop frm' all = List.drop (frm' - frm) (List.drop frm all) := by
      rw [List.drop_drop]
      congr 1
      omega
    rw [hdd, List.take_append_drop]
  | cons o rest =>
    have ho : frm' ≤ o.start := h2 o rfl
    show byteSlice all frm o.start ++ compactFrom all o.stop rest =
      byteSlice all frm frm' ++ (byteSlice all frm' o.start ++ compactFrom all o.stop rest)
    rw [← List.append_assoc]
    congr 1
    rw [byteSlice, byteSlice, byteSlice]
    have hsplit : o.start - frm = (frm' - frm) + (o.start - frm') := by omega
    rw [hsplit, List.take_add]
    congr 1
    rw [List.drop_drop]
    congr 2
    omega

theorem compactFrom_deadIn :
    ∀ (A : List AEntry) (pre : Bytes),
      compactFrom (pre ++ joinChunks A) pre.length (deadIn pre.length A) =
        joinChunks (A.filter (·.alive))
  | [], pre => by
    show (pre ++ joinChunks []).drop pre.length = _
    simp [joinChunks]
  | a :: A, pre => by
    rw [deadIn_cons]
    have hlen : (pre ++ a.chunk).length = pre.length + a.chunk.length := by
      simp
    have hbufeq : (pre ++ a.chunk) ++ joinChunks A = pre ++ joinChunks (a :: A) := by
      rw [joinChunks_cons, List.append_assoc]
    have ih : compactFrom (pre ++ joinChunks (a :: A))
        (pre.length + a.chunk.length)
        (deadIn (pre.length + a.chunk.length) A) =
        joinChunks (A.filter (·.alive)) := by
      have := compactFrom_deadIn A (pre ++ a.chunk)
      rw [hlen, hbufeq] at this
      exact this
    by_cases ha : a.alive
    · rw [if_pos ha, List.nil_append]
      rw [compactFrom_split (pre ++ joinChunks (a :: A)) pre.length
        (pre.length + a.chunk.length) _ (Nat.le_add_right _ _)
        (fun o ho => deadIn_start_ge A _ o (List.mem_of_mem_head? ho))]
      rw [ih]
      have h1 : byteSlice (pre ++ joinChunks (a :: A)) pre.length
          (pre.length + a.chunk.length) = a.chunk := by
        rw [joinChunks_cons]
        exact byteSlice_exact pre a.chunk (joinChunks A)
      rw [h1, List.filter_cons]
      simp [ha, joinChunks_cons]
    · rw [if_neg ha, List.singleton_append]
      show byteSlice _ pre.length pre.length ++ _ = _
      have h0 : byteSlice (pre ++ joinChunks (a :: A)) pre.length pre.length = [] := by
        rw [byteSlice, Nat.sub_self, List.take_zero]
      rw [h0, List.nil_append, ih, List.filter_cons]
      simp [ha]

theorem removeObsolete_eq_compactFrom (buf : Bytes) (obs : List interval) :
    removeObsolete buf obs = compactFrom buf 0 obs := by
  cases obs with
  | nil => rfl
  | cons o rest =>
    show buf.take o.start ++ compactFrom buf o.stop rest =
      byteSlice buf 0 o.start ++ compactFrom buf o.stop rest
    rfl

/-! ## The main equivalence -/

theorem runC_eq (kvss : List (List Bytes)) :
    kvss.foldl
      (fun st kvs => (pairsOf kvs).foldl (fun st' p => processKV st' p.1 p.2) st)
      emptyState = runC (allPairs kvss) := by
  rw [runC, allPairs, List.foldl_flatten, List.foldl_map]

/-- The output of `Formatter.FormatKVs` is the concatenation of the
rendered chunks of the surviving occurrences, in buffer order. -/
theorem FormatKVs_eq_survivors (kvss : List (List Bytes)) :
    FormatKVs kvss = ((survivingKVs kvss).map (·.2)).flatten := by
  obtain ⟨hbuf, hobs, -, -, -, -⟩ :=
    Coupled_run (allPairs kvss) [] emptyState Coupled_nil
  have hF : FormatKVs kvss =
      removeObsolete (runC (allPairs kvss)).buf (runC (allPairs kvss)).obsolete := by
    simp only [FormatKVs, runC_eq]
  rw [hF]
  show removeObsolete
      ((allPairs kvss).foldl (fun s p => processKV s p.1 p.2) emptyState).buf
      ((allPairs kvss).foldl (fun s p => processKV s p.1 p.2) emptyState).obsolete = _
  rw [hbuf, hobs, removeObsolete_eq_compactFrom]
  show compactFrom (joinChunks (runA (allPairs kvss))) 0
      (deadIn 0 (runA (allPairs kvss))) = _
  have hc := compactFrom_deadIn (runA (allPairs kvss)) []
  simp only [List.length_nil, List.nil_append] at hc
  rw [hc, survivingKVs, survivors, joinChunks, List.map_map]
  rfl

/-! ## Surviving entries and last assignments -/

theorem runA_concat (ps : List (Bytes × Bytes)) (p : Bytes × Bytes) :
    runA (ps ++ [p]) = aStep (runA ps) p.1 p.2 := by
  rw [runA, runA, List.foldl_concat]

theorem lastAssigned_concat (ps : List (Bytes × Bytes)) (p : Bytes × Bytes)
    (k : Bytes) :
    lastAssigned (ps ++ [p]) k =
      if p.1 == k then some p.2 else lastAssigned ps k := by
  rw [lastAssigned, List.filter_append]
  by_cases h : p.1 == k
  · have : List.filter (fun q => q.1 == k) [p] = [p] := by simp [h]
    rw [this, if_pos h, List.map_append]
    simp
  · have hf : (p.1 == k) = false := by simpa using h
    have : List.filter (fun q => q.1 == k) [p] = [] := by
      simp [List.filter_cons, hf]
    rw [this, if_neg h, List.append_nil, lastAssigned]

/-- The rendering of the live occurrence of a key is the rendering of the
key's last assigned value. -/
theorem findAlive_runA (pairs : List (Bytes × Bytes)) :
    ∀ k : Bytes,
      findAlive (runA pairs) k = (lastAssigned pairs k).map fun v => KVFormat k v := by
  induction pairs using List.reverseRecOn with
  | nil => intro k; rfl
  | append_singleton ps p ih =>
    intro k
    rw [runA_concat, lastAssigned_concat]
    cases hcase : findAlive (runA ps) p.1 with
    | none =>
      have hstep : aStep (runA ps) p.1 p.2 =
          runA ps ++ [⟨p.1, KVFormat p.1 p.2, true⟩] := by
        simp only [aStep, hcase]
      rw [hstep, findAlive_concat]
      by_cases hk : p.1 = k
      · subst hk
        rw [hcase, Option.none_or]
        have hbeq : ((⟨p.1, KVFormat p.1 p.2, true⟩ : AEntry).alive &&
            (⟨p.1, KVFormat p.1 p.2, true⟩ : AEntry).key == p.1) = true := by simp
        rw [if_pos hbeq]
        simp
      · have hbeq : ((⟨p.1, KVFormat p.1 p.2, true⟩ : AEntry).alive &&
            (⟨p.1, KVFormat p.1 p.2, true⟩ : AEntry).key == k) = false := by
          simp [hk]
        rw [hbeq]
        simp only [Bool.false_eq_true, if_false, Option.or_none]
        rw [if_neg (by simpa using hk), ih k]
    | some c =>
      by_cases hcr : c = KVFormat p.1 p.2
      · have hstep : aStep (runA ps) p.1 p.2 =
            runA ps ++ [⟨p.1, KVFormat p.1 p.2, false⟩] := by
          simp only [aStep, hcase]
          rw [if_pos hcr]
        rw [hstep, findAlive_concat]
        have hbeq : ∀ x : Bytes, ((⟨p.1, KVFormat p.1 p.2, false⟩ : AEntry).alive &&
            (⟨p.1, KVFormat p.1 p.2, false⟩ : AEntry).key == x) = false := by
          simp
        rw [hbeq k]
        simp only [Bool.false_eq_true, if_false, Option.or_none]
        by_cases hk : p.1 = k
        · subst hk
          rw [if_pos (by simp), hcase, hcr]
          simp
        · rw [if_neg (by simpa using hk), ih k]
      · have hstep : aStep (runA ps) p.1 p.2 =
            killKey (runA ps) p.1 ++ [⟨p.1, KVFormat p.1 p.2, true⟩] := by
          simp only [aStep, hcase]
          rw [if_neg hcr]
        rw [hstep, findAlive_concat]
        by_cases hk : p.1 = k
        · subst hk
          rw [findAlive_killKey_self, Option.none_or]
          have hbeq : ((⟨p.1, KVFormat p.1 p.2, true⟩ : AEntry).alive &&
              (⟨p.1, KVFormat p.1 p.2, true⟩ : AEntry).key == p.1) = true := by simp
          rw [if_pos hbeq, if_pos (by simp)]
          simp
        · have hbeq : ((⟨p.1, KVFormat p.1 p.2, true⟩ : AEntry).alive &&
              (⟨p.1, KVFormat p.1 p.2, true⟩ : AEntry).key == k) = false := by
            simp [hk]
          rw [hbeq]
          simp only [Bool.false_eq_true, if_false, Option.or_none]
          rw [findAlive_killKey_ne (runA ps) p.1 k hk,
            if_neg (by simpa using hk), ih k]

/-- Looking a key up among the survivors yields its live rendering. -/
theorem survivors_find? (A : List AEntry) (k : Bytes) :
    ((survivors A).find? fun q => q.1 == k).map (·.2) = findAlive A k := by
  rw [survivors, List.find?_map, Option.map_map, find?_filter_eq, findAlive]
  rfl

/-- The surviving keys are exactly the live keys, without duplicates. -/
theorem survivingKVs_keys (kvss : List (List Bytes)) :
    (survivingKVs kvss).map (·.1) =
      ((runA (allPairs kvss)).filter (·.alive)).map (·.key) := by
  rw [survivingKVs, survivors, List.map_map]
  rfl

/-! ## Claim C1 -/

/-- C1: the formatted output is the concatenation of one surviving span per
key (no duplicate keys), and the surviving span of every key is the
rendering of the last value assigned to that key across the input lists in
order. -/
theorem claim_C1_last_one_wins (kvss : List (List Bytes)) (k : Bytes) :
    FormatKVs kvss = ((survivingKVs kvss).map (·.2)).flatten ∧
    ((survivingKVs kvss).map (·.1)).Nodup ∧
    ((survivingKVs kvss).find? fun q => q.1 == k).map (·.2) =
      (lastAssigned (allPairs kvss) k).map fun v => KVFormat k v := by
  refine ⟨FormatKVs_eq_survivors kvss, ?_, ?_⟩
  · rw [survivingKVs_keys]
    obtain ⟨-, -, -, -, -, hnodup⟩ :=
      Coupled_run (allPairs kvss) [] emptyState Coupled_nil
    exact hnodup
  · rw [survivingKVs, survivors_find?, findAlive_runA]

/-! ## Claim C5 -/

theorem allPairs_concat_pair (kvss : List (List Bytes)) (k v : Bytes) :
    allPairs (kvss ++ [[k, v]]) = allPairs kvss ++ [(k, v)] := by
  simp [allPairs, pairsOf]

theorem survivors_concat_dead (A : List AEntry) (k r : Bytes) :
    survivors (A ++ [⟨k, r, false⟩]) = survivors A := by
  simp [survivors, List.filter_append]

theorem survivors_filter_map (F : List AEntry) (k : Bytes) :
    (F.filter fun a => !(a.key == k)).map (fun a => (a.key, a.chunk)) =
      (F.map fun a => (a.key, a.chunk)).filter fun q => !(q.1 == k) := by
  induction F with
  | nil => rfl
  | cons a F ih => by_cases h : a.key == k <;> simp [List.filter_cons, h, ih]

/-- C5: appending a pair whose rendering is identical to the key's current
surviving span leaves the output byte-for-byte unchanged (the earlier
position is kept); appending a pair whose rendering differs moves the key's
span to the end of the output (the later position wins). -/
theorem claim_C5_idempotent_position (kvss : List (List Bytes)) (k v : Bytes) :
    (findAlive (runA (allPairs kvss)) k = some (KVFormat k v) →
      FormatKVs (kvss ++ [[k, v]]) = FormatKVs kvss) ∧
    (∀ r', findAlive (runA (allPairs kvss)) k = some r' →
      r' ≠ KVFormat k v →
        FormatKVs (kvss ++ [[k, v]]) =
          (((survivingKVs kvss).filter fun q => !(q.1 == k)).map (·.2)).flatten ++
            KVFormat k v) := by
  constructor
  · intro hid
    rw [FormatKVs_eq_survivors, FormatKVs_eq_survivors]
    have hsurv : survivingKVs (kvss ++ [[k, v]]) = survivingKVs kvss := by
      rw [survivingKVs, survivingKVs, allPairs_concat_pair, runA_concat]
      have hstep : aStep (runA (allPairs kvss)) k v =
          runA (allPairs kvss) ++ [⟨k, KVFormat k v, false⟩] := by
        simp only [aStep, hid]
        simp
      rw [hstep, survivors_concat_dead]
    rw [hsurv]
  · intro r' hr' hne
    rw [FormatKVs_eq_survivors]
    have hsurv : survivingKVs (kvss ++ [[k, v]]) =
        (survivingKVs kvss).filter (fun q => !(q.1 == k)) ++
          [(k, KVFormat k v)] := by
      rw [survivingKVs, survivingKVs, allPairs_concat_pair, runA_concat]
      have hstep : aStep (runA (allPairs kvss)) k v =
          killKey (runA (allPairs kvss)) k ++ [⟨k, KVFormat k v, true⟩] := by
        simp only [aStep, hr']
        rw [if_neg hne]
      rw [hstep, survivors, List.filter_append, filter_alive_killKey,
        List.map_append, survivors_filter_map]
      congr 1
    rw [hsurv, List.map_append, List.flatten_append]
    simp

/-- Witness for C5: over the list `a=1`, repeating `a=1` leaves the output
unchanged while overriding with `a=2` moves `a` to the end. -/
theorem claim_C5_idempotent_position_witness :
    (FormatKVs ([[("a").data, ("1").data]] ++ [[("a").data, ("1").data]]) =
      FormatKVs [[("a").data, ("1").data]]) ∧
    (FormatKVs ([[("a").data, ("1").data]] ++ [[("a").data, ("2").data]]) =
      (((survivingKVs [[("a").data, ("1").data]]).filter
          fun q => !(q.1 == ("a").data)).map (·.2)).flatten ++
        KVFormat ("a").data ("2").data) :=
  ⟨(claim_C5_idempotent_position [[("a").data, ("1").data]] ("a").data
      ("1").data).1 (by decide),
   (claim_C5_idempotent_position [[("a").data, ("1").data]] ("a").data
      ("2").data).2 (KVFormat ("a").data ("1").data) (by decide) (by decide)⟩
